import Mathlib

/-!
# Verification of the SPI TFT driver (tft_spi.py)

A shallow embedding of the drawing layer of the MicroPython TFT driver
(`TFTBase` in `tft_spi.py`) together with proofs of the specified
properties.

Modelling conventions:
* Python integers are `Int` (arbitrary precision, signed); byte and
  color values produced by the code are `Nat`.
* Bus traffic is modelled by the data each method would write: a
  drawing method returns the window it addresses (`Window`) together
  with the pixel bytes (or the byte count) it streams, or `none` when
  it returns without touching the bus.
* Methods that draw through `pixel` are modelled by the list of
  `pixel` calls they issue, in order.
* Python's bitwise AND of an arbitrary-precision integer with a mask
  `2^k - 1` (two's complement semantics) is `Int.emod · (2^k)`; see
  `pyMask`.
-/

/-- Python `r & (2^k - 1)` on arbitrary-precision two's-complement
integers: the result is the nonnegative remainder of `r` modulo `2^k`,
i.e. `Int.emod`.  Used for the source expressions `r & 3` (`k = 2`)
and `self._rotation & 1` (`k = 1`). -/
def pyMask (r : Int) (k : Nat) : Int := r % ((2 : Int) ^ k)

/-- `color565(r, g, b)` from `tft_spi.py`:
`((r & 0xF8) << 8) | ((g & 0xFC) << 3) | (b >> 3)`. -/
def color565 (r g b : Nat) : Nat :=
  ((r &&& 0xF8) <<< 8) ||| ((g &&& 0xFC) <<< 3) ||| (b >>> 3)

/-- The display-handle state relevant to the drawing layer: physical
panel width and height (`_w`, `_h`), the stored rotation
(`_rotation`), and the GRAM origin offsets (`_xoff`, `_yoff`; the
constructor of `TFTBase` sets both to 0). -/
structure TFT where
  w : Int
  h : Int
  rotation : Int
  xoff : Int
  yoff : Int

/-- An address window `(x0, y0, x1, y1)` as sent by `_set_window` via
the CASET/RASET commands. -/
structure Window where
  x0 : Int
  y0 : Int
  x1 : Int
  y1 : Int
deriving DecidableEq, Repr

/-- `width` property: `self._w if (self._rotation & 1) == 0 else self._h`. -/
def TFT.width (t : TFT) : Int :=
  if pyMask t.rotation 1 = 0 then t.w else t.h

/-- `height` property: `self._h if (self._rotation & 1) == 0 else self._w`. -/
def TFT.height (t : TFT) : Int :=
  if pyMask t.rotation 1 = 0 then t.h else t.w

/-- `rotation(r)`: stores `r & 3` (the MADCTL write it also performs
carries no state). -/
def TFT.setRotation (t : TFT) (r : Int) : TFT :=
  { t with rotation := pyMask r 2 }

/-- `_set_window(x0, y0, x1, y1)`: applies the stored offsets and
addresses the resulting rectangle. -/
def TFT.setWindow (t : TFT) (x0 y0 x1 y1 : Int) : Window :=
  ⟨x0 + t.xoff, y0 + t.yoff, x1 + t.xoff, y1 + t.yoff⟩

/-- Number of pixels a window addresses. -/
def Window.pixelCount (win : Window) : Int :=
  (win.x1 - win.x0 + 1) * (win.y1 - win.y0 + 1)

/-- `pixel(x, y, color)`: bounds-checked single-pixel window-and-write;
`none` when the coordinate is outside the visible area (the method
returns before any bus traffic). -/
def TFT.pixel (t : TFT) (x y : Int) (color : Nat) : Option (Window × List Nat) :=
  if x < 0 ∨ y < 0 ∨ x ≥ t.width ∨ y ≥ t.height then none
  else some (t.setWindow x y x y, [color >>> 8, color &&& 0xFF])

/-- Number of data bytes streamed by the chunked fill loop of
`fill_rect` for `total` remaining pixels: each pass writes
`chunk[:2*n]` with `n = 64 if total >= 64 else total`. -/
def streamFill (total : Int) : Nat :=
  if h : 0 < total then
    (2 * (if total ≥ 64 then 64 else total)).toNat
      + streamFill (total - (if total ≥ 64 then 64 else total))
  else 0
termination_by total.toNat
decreasing_by
  split <;> omega

/-- `fill_rect(x, y, w, h, color)`: validates `w > 0` and `h > 0`,
rejects fully out-of-bounds rectangles, clips to the visible region,
then addresses the clipped window and streams the fill chunks.
Returns the window and the number of data bytes streamed, or `none`
when the method returns with no bus traffic. -/
def TFT.fillRect (t : TFT) (x y w h : Int) (color : Nat) : Option (Window × Nat) :=
  if w ≤ 0 ∨ h ≤ 0 then none
  else
    let x1 := x + w - 1
    let y1 := y + h - 1
    if x1 < 0 ∨ y1 < 0 ∨ x ≥ t.width ∨ y ≥ t.height then none
    else
      -- Clip (`w += x; x = 0` etc., in source order)
      let w2 := if x < 0 then w + x else w
      let x2 := if x < 0 then 0 else x
      let h2 := if y < 0 then h + y else h
      let y2 := if y < 0 then 0 else y
      let w3 := if x2 + w2 > t.width then t.width - x2 else w2
      let h3 := if y2 + h2 > t.height then t.height - y2 else h2
      some (t.setWindow x2 y2 (x2 + w3 - 1) (y2 + h3 - 1), streamFill (w3 * h3))

theorem streamFill_eq (total : Int) : streamFill total = (2 * total).toNat := by
  rw [streamFill]
  split
  · rw [streamFill_eq (total - (if total ≥ 64 then 64 else total))]
    split <;> omega
  · omega
termination_by total.toNat
decreasing_by
  split <;> omega

theorem window_bytes (t : TFT) (x2 y2 a b : Int) (ha : 0 ≤ a) (hb : 0 ≤ b) :
    2 * (t.setWindow x2 y2 (x2 + a - 1) (y2 + b - 1)).pixelCount
      = (streamFill (a * b) : Int) := by
  have hab : 0 ≤ a * b := mul_nonneg ha hb
  rw [streamFill_eq, Int.toNat_of_nonneg (by omega)]
  simp only [TFT.setWindow, Window.pixelCount]
  ring

/-- C1: for every `fill_rect(x, y, w, h, color)` call with `w > 0` and
`h > 0` on a display of any (nonnegative) dimensions, the pixel count
of the window addressed via `_set_window` is exactly half the number
of color bytes streamed afterwards, and a rectangle entirely outside
the panel bounds produces no bus traffic at all. -/
theorem fillRect_window_matches_bytes (t : TFT) (x y w h : Int) (color : Nat)
    (hw : 0 < w) (hh : 0 < h) (hW : 0 ≤ t.w) (hH : 0 ≤ t.h) :
    (∀ win n, t.fillRect x y w h color = some (win, n) →
      2 * win.pixelCount = (n : Int)) ∧
    ((x + w - 1 < 0 ∨ y + h - 1 < 0 ∨ t.width ≤ x ∨ t.height ≤ y) →
      t.fillRect x y w h color = none) := by
  have hW' : 0 ≤ t.width := by
    unfold TFT.width; split <;> assumption
  have hH' : 0 ≤ t.height := by
    unfold TFT.height; split <;> assumption
  constructor
  · intro win n hc
    simp only [TFT.fillRect] at hc
    rw [if_neg (by omega)] at hc
    split at hc
    · exact absurd hc (by simp)
    · next hg =>
      simp only [Option.some.injEq, Prod.mk.injEq] at hc
      obtain ⟨hwin, hn⟩ := hc
      subst hwin hn
      apply window_bytes <;> (split_ifs <;> omega)
  · intro hout
    simp only [TFT.fillRect]
    split <;> first | rfl | (exfalso; omega)

/-- C3: `rotation(r)` stores `r mod 4`; for every stored rotation the
`width`/`height` accessors return the physical panel dimensions
swapped exactly when the stored rotation is odd and unchanged when it
is even. -/
theorem rotation_stores_mod4_and_swaps_dims (t : TFT) (r : Int) :
    (t.setRotation r).rotation = r % 4 ∧
    (0 ≤ (t.setRotation r).rotation ∧ (t.setRotation r).rotation < 4) ∧
    (t.setRotation r).width =
      (if (t.setRotation r).rotation % 2 = 1 then t.h else t.w) ∧
    (t.setRotation r).height =
      (if (t.setRotation r).rotation % 2 = 1 then t.w else t.h) := by
  have h4 : (2 : Int) ^ 2 = 4 := by norm_num
  have h2 : (2 : Int) ^ 1 = 2 := by norm_num
  simp only [TFT.setRotation, TFT.width, TFT.height, pyMask, h4, h2]
  refine ⟨by trivial, ⟨by omega, by omega⟩, ?_, ?_⟩ <;> split_ifs <;> first | rfl | omega

/-- C4: `fill_rect` is a silent no-op for nonpositive dimensions and
for rectangles entirely outside the panel; when it does draw, the
addressed window lies within `[0, width) × [0, height)`.  (The model
is a total function: no drawing call raises for zero or negative
dimensions.) -/
theorem fillRect_noop_or_clipped (t : TFT) (x y w h : Int) (color : Nat)
    (hx : t.xoff = 0) (hy : t.yoff = 0) (hW : 0 < t.w) (hH : 0 < t.h) :
    ((w ≤ 0 ∨ h ≤ 0) → t.fillRect x y w h color = none) ∧
    ((x + w - 1 < 0 ∨ y + h - 1 < 0 ∨ t.width ≤ x ∨ t.height ≤ y) →
      t.fillRect x y w h color = none) ∧
    (∀ win n, t.fillRect x y w h color = some (win, n) →
      0 ≤ win.x0 ∧ win.x0 ≤ win.x1 ∧ win.x1 < t.width ∧
      0 ≤ win.y0 ∧ win.y0 ≤ win.y1 ∧ win.y1 < t.height) := by
  have hW' : 0 < t.width := by
    unfold TFT.width; split <;> assumption
  have hH' : 0 < t.height := by
    unfold TFT.height; split <;> assumption
  refine ⟨?_, ?_, ?_⟩
  · intro hwh
    simp only [TFT.fillRect]
    rw [if_pos hwh]
  · intro hout
    simp only [TFT.fillRect]
    split <;> first | rfl | (exfalso; omega)
  · intro win n hc
    simp only [TFT.fillRect] at hc
    split at hc
    · exact absurd hc (by simp)
    · split at hc
      · exact absurd hc (by simp)
      · next hwh hg =>
        simp only [Option.some.injEq, Prod.mk.injEq] at hc
        obtain ⟨hwin, hn⟩ := hc
        subst hwin
        simp only [TFT.setWindow, hx, hy, add_zero]
        split_ifs at * <;> omega

/-- Concrete instantiation of `fillRect_window_matches_bytes`: a 5×7
rectangle at (10, 20) on a 240×320 panel. -/
theorem fillRect_window_matches_bytes_witness :
    (0 : Int) < 5 ∧ (0 : Int) < 7 ∧ (0 : Int) ≤ 240 ∧ (0 : Int) ≤ 320 ∧
    ((∀ win n, (TFT.mk 240 320 0 0 0).fillRect 10 20 5 7 0 = some (win, n) →
        2 * win.pixelCount = (n : Int)) ∧
      (((10 : Int) + 5 - 1 < 0 ∨ (20 : Int) + 7 - 1 < 0 ∨ (TFT.mk 240 320 0 0 0).width ≤ 10 ∨
          (TFT.mk 240 320 0 0 0).height ≤ 20) →
        (TFT.mk 240 320 0 0 0).fillRect 10 20 5 7 0 = none)) :=
  ⟨by decide, by decide, by decide, by decide,
    fillRect_window_matches_bytes (TFT.mk 240 320 0 0 0) 10 20 5 7 0
      (by decide) (by decide) (by decide) (by decide)⟩

/-- Concrete instantiation of `fillRect_noop_or_clipped`: a partially
out-of-bounds rectangle on a 240×320 panel. -/
theorem fillRect_noop_or_clipped_witness :
    (TFT.mk 240 320 0 0 0).xoff = 0 ∧ (TFT.mk 240 320 0 0 0).yoff = 0 ∧
    (0 : Int) < 240 ∧ (0 : Int) < 320 ∧
    (((-3 : Int) ≤ 0 ∨ (4 : Int) ≤ 0 → (TFT.mk 240 320 0 0 0).fillRect (-3) (-2) (-3) 4 0 = none) ∧
      (((-3 : Int) + -3 - 1 < 0 ∨ (-2 : Int) + 4 - 1 < 0 ∨ (TFT.mk 240 320 0 0 0).width ≤ -3 ∨
          (TFT.mk 240 320 0 0 0).height ≤ -2) →
        (TFT.mk 240 320 0 0 0).fillRect (-3) (-2) (-3) 4 0 = none) ∧
      (∀ win n, (TFT.mk 240 320 0 0 0).fillRect (-3) (-2) (-3) 4 0 = some (win, n) →
        0 ≤ win.x0 ∧ win.x0 ≤ win.x1 ∧ win.x1 < (TFT.mk 240 320 0 0 0).width ∧
        0 ≤ win.y0 ∧ win.y0 ≤ win.y1 ∧ win.y1 < (TFT.mk 240 320 0 0 0).height)) :=
  ⟨by decide, by decide, by decide, by decide,
    fillRect_noop_or_clipped (TFT.mk 240 320 0 0 0) (-3) (-2) (-3) 4 0
      (by decide) (by decide) (by decide) (by decide)⟩

/-! ### C2: RGB565 packing and its quantization error -/

/-- Modelled from the spec: the nearest representable 8-bit red value
recovered from the packed RGB565 form (top 5 bits, re-expanded). -/
def spec_unpackR (p : Nat) : Nat := (p >>> 11) <<< 3

/-- Modelled from the spec: the nearest representable 8-bit green value
recovered from the packed RGB565 form (middle 6 bits, re-expanded). -/
def spec_unpackG (p : Nat) : Nat := ((p >>> 5) &&& 0x3F) <<< 2

/-- Modelled from the spec: the nearest representable 8-bit blue value
recovered from the packed RGB565 form (low 5 bits, re-expanded). -/
def spec_unpackB (p : Nat) : Nat := (p &&& 0x1F) <<< 3

set_option maxRecDepth 8192 in
theorem land_248 : ∀ r : Nat, r < 256 → r &&& 248 = 8 * (r / 8) := by decide

set_option maxRecDepth 8192 in
theorem land_252 : ∀ g : Nat, g < 256 → g &&& 252 = 4 * (g / 4) := by decide

theorem color565_eq (r g b : Nat) (hr : r < 256) (hg : g < 256) (hb : b < 256) :
    color565 r g b = 2048 * (r / 8) + 32 * (g / 4) + b / 8 := by
  unfold color565
  rw [show (0xF8 : Nat) = 248 from rfl, show (0xFC : Nat) = 252 from rfl]
  rw [land_248 r hr, land_252 g hg]
  rw [Nat.shiftLeft_eq, Nat.shiftLeft_eq, Nat.shiftRight_eq_div_pow]
  have e1 : 8 * (r / 8) * 2 ^ 8 = 2 ^ 11 * (r / 8) := by ring
  have e2 : 4 * (g / 4) * 2 ^ 3 = 2 ^ 5 * (g / 4) := by ring
  rw [e1, e2]
  have hB : b / 2 ^ 3 < 2 ^ 5 := by omega
  rw [Nat.or_assoc, ← Nat.mul_add_lt_is_or hB (g / 4)]
  have hGB : 2 ^ 5 * (g / 4) + b / 2 ^ 3 < 2 ^ 11 := by omega
  rw [← Nat.mul_add_lt_is_or hGB (r / 8)]
  have p3 : (2 : Nat) ^ 3 = 8 := rfl
  have p5 : (2 : Nat) ^ 5 = 32 := rfl
  have p11 : (2 : Nat) ^ 11 = 2048 := rfl
  rw [p3, p5, p11]
  omega

/-- C2: `color565` is a pure function packing the channels into a
16-bit RGB565 value, and unpacking the nearest representable channel
values out of the packed form recovers each original channel within
the quantization error (at most 4 for green, at most 8 for red and
blue). -/
theorem color565_roundtrip (r g b : Nat) (hr : r ≤ 255) (hg : g ≤ 255) (hb : b ≤ 255) :
    color565 r g b < 65536 ∧
    spec_unpackR (color565 r g b) ≤ r ∧ r - spec_unpackR (color565 r g b) ≤ 8 ∧
    spec_unpackG (color565 r g b) ≤ g ∧ g - spec_unpackG (color565 r g b) ≤ 4 ∧
    spec_unpackB (color565 r g b) ≤ b ∧ b - spec_unpackB (color565 r g b) ≤ 8 := by
  have hc := color565_eq r g b (by omega) (by omega) (by omega)
  rw [hc]
  unfold spec_unpackR spec_unpackG spec_unpackB
  have h63 : ∀ x : Nat, x &&& 63 = x % 64 := fun x => by
    have h := Nat.and_pow_two_sub_one_eq_mod x 6
    norm_num at h
    exact h
  have h31 : ∀ x : Nat, x &&& 31 = x % 32 := fun x => by
    have h := Nat.and_pow_two_sub_one_eq_mod x 5
    norm_num at h
    exact h
  rw [show (0x3F : Nat) = 63 from rfl, show (0x1F : Nat) = 31 from rfl, h63, h31]
  rw [Nat.shiftRight_eq_div_pow, Nat.shiftRight_eq_div_pow,
    Nat.shiftLeft_eq, Nat.shiftLeft_eq, Nat.shiftLeft_eq]
  have p2 : (2 : Nat) ^ 2 = 4 := rfl
  have p3 : (2 : Nat) ^ 3 = 8 := rfl
  have p5 : (2 : Nat) ^ 5 = 32 := rfl
  have p11 : (2 : Nat) ^ 11 = 2048 := rfl
  rw [p2, p3, p5, p11]
  omega

/-- Concrete instantiation of `color565_roundtrip` at
`(r, g, b) = (200, 100, 50)`. -/
theorem color565_roundtrip_witness :
    (200 : Nat) ≤ 255 ∧ (100 : Nat) ≤ 255 ∧ (50 : Nat) ≤ 255 ∧
    (color565 200 100 50 < 65536 ∧
      spec_unpackR (color565 200 100 50) ≤ 200 ∧
      200 - spec_unpackR (color565 200 100 50) ≤ 8 ∧
      spec_unpackG (color565 200 100 50) ≤ 100 ∧
      100 - spec_unpackG (color565 200 100 50) ≤ 4 ∧
      spec_unpackB (color565 200 100 50) ≤ 50 ∧
      50 - spec_unpackB (color565 200 100 50) ≤ 8) :=
  ⟨by decide, by decide, by decide,
    color565_roundtrip 200 100 50 (by decide) (by decide) (by decide)⟩

/-! ### C5: radius-0 circle and filled circle -/

/-- The midpoint-circle loop of `circle`: the list of `pixel` calls it
issues (8-way symmetric points per step). -/
def circleLoop (x0 y0 : Int) (color : Nat) (x y err : Int) : List ((Int × Int) × Nat) :=
  if x ≥ y then
    [((x0 + x, y0 + y), color), ((x0 + y, y0 + x), color), ((x0 - y, y0 + x), color),
      ((x0 - x, y0 + y), color), ((x0 - x, y0 - y), color), ((x0 - y, y0 - x), color),
      ((x0 + y, y0 - x), color), ((x0 + x, y0 - y), color)] ++
    (if err < 0 then circleLoop x0 y0 color x (y + 1) (err + 2 * (y + 1) + 1)
      else circleLoop x0 y0 color (x - 1) (y + 1) (err + 2 * ((y + 1) - (x - 1)) + 1))
  else []
termination_by (x - y + 1).toNat
decreasing_by all_goals omega

/-- `circle(x0, y0, r, color)`: the `pixel` calls issued by the
midpoint-circle algorithm (`x = r`, `y = 0`, `err = 1 - r`). -/
def circlePlots (x0 y0 r : Int) (color : Nat) : List ((Int × Int) × Nat) :=
  circleLoop x0 y0 color r 0 (1 - r)

/-- The scanline loop of `fill_circle`: the list of `hline`
(i.e. `fill_rect` with height 1) events it issues. -/
def fillCircleLoop (t : TFT) (x0 y0 : Int) (color : Nat) (x y err : Int) :
    List (Option (Window × Nat)) :=
  if x ≥ y then
    [t.fillRect (x0 - x) (y0 + y) (2 * x + 1) 1 color,
      t.fillRect (x0 - x) (y0 - y) (2 * x + 1) 1 color,
      t.fillRect (x0 - y) (y0 + x) (2 * y + 1) 1 color,
      t.fillRect (x0 - y) (y0 - x) (2 * y + 1) 1 color] ++
    (if err < 0 then fillCircleLoop t x0 y0 color x (y + 1) (err + 2 * (y + 1) + 1)
      else fillCircleLoop t x0 y0 color (x - 1) (y + 1) (err + 2 * ((y + 1) - (x - 1)) + 1))
  else []
termination_by (x - y + 1).toNat
decreasing_by all_goals omega

/-- `fill_circle(x0, y0, r, color)`: the `fill_rect` events issued by
the scanline midpoint algorithm. -/
def TFT.fillCircle (t : TFT) (x0 y0 r : Int) (color : Nat) : List (Option (Window × Nat)) :=
  fillCircleLoop t x0 y0 color r 0 (1 - r)

theorem circlePlots_radius0 (x0 y0 : Int) (c : Nat) :
    circlePlots x0 y0 0 c = List.replicate 8 ((x0, y0), c) := by
  rw [circlePlots, circleLoop, if_pos (by omega), if_neg (by omega), circleLoop,
    if_neg (by omega)]
  norm_num [List.replicate]

theorem fillCircle_radius0 (t : TFT) (x0 y0 : Int) (c : Nat) :
    t.fillCircle x0 y0 0 c = List.replicate 4 (t.fillRect x0 y0 1 1 c) := by
  rw [TFT.fillCircle, fillCircleLoop, if_pos (by omega), if_neg (by omega), fillCircleLoop,
    if_neg (by omega)]
  norm_num [List.replicate]

theorem fillRect_unit (t : TFT) (x0 y0 : Int) (c : Nat)
    (hx0 : 0 ≤ x0) (hx1 : x0 < t.width) (hy0 : 0 ≤ y0) (hy1 : y0 < t.height) :
    t.fillRect x0 y0 1 1 c = some (t.setWindow x0 y0 x0 y0, 2) := by
  simp only [TFT.fillRect]
  have c0 : ¬((1 : Int) ≤ 0 ∨ (1 : Int) ≤ 0) := by norm_num
  have c1 : ¬(x0 + 1 - 1 < 0 ∨ y0 + 1 - 1 < 0 ∨ x0 ≥ t.width ∨ y0 ≥ t.height) := by omega
  have c2 : ¬(x0 < 0) := by omega
  have c3 : ¬(y0 < 0) := by omega
  rw [if_neg c0, if_neg c1, if_neg c2, if_neg c2, if_neg c3, if_neg c3,
    if_neg (by omega : ¬x0 + 1 > t.width), if_neg (by omega : ¬y0 + 1 > t.height)]
  have : streamFill (1 * 1) = 2 := by rw [streamFill_eq]; rfl
  rw [this]
  norm_num

/-- Counterexample to C5 as stated: `fill_circle(5, 5, 0, c)` on a
10×10 panel does not draw "nothing visible" — it issues four
`fill_rect` events, each addressing the one-pixel window at (5, 5) and
streaming 2 color bytes. -/
theorem fillCircle_radius0_draws_center_pixel :
    (TFT.mk 10 10 0 0 0).fillCircle 5 5 0 0 =
      [some (⟨5, 5, 5, 5⟩, 2), some (⟨5, 5, 5, 5⟩, 2),
        some (⟨5, 5, 5, 5⟩, 2), some (⟨5, 5, 5, 5⟩, 2)] := by
  rw [fillCircle_radius0, fillRect_unit (TFT.mk 10 10 0 0 0) 5 5 0 (by decide)
    (by decide) (by decide) (by decide)]
  decide

/-- C5 (amended): `circle(x0, y0, 0, color)` plots only the pixel
`(x0, y0)` (eight coincident `pixel` calls, one distinct position),
and `fill_circle(x0, y0, 0, color)` draws exactly that same single
pixel (four one-pixel scanline events at `(x0, y0)`), not nothing. -/
theorem circle_fillCircle_radius0_single_pixel (t : TFT) (x0 y0 : Int) (c : Nat)
    (hx0 : 0 ≤ x0) (hx1 : x0 < t.width) (hy0 : 0 ≤ y0) (hy1 : y0 < t.height)
    (hxo : t.xoff = 0) (hyo : t.yoff = 0) :
    (∀ p ∈ circlePlots x0 y0 0 c, p = ((x0, y0), c)) ∧
    circlePlots x0 y0 0 c ≠ [] ∧
    (∀ e ∈ t.fillCircle x0 y0 0 c, e = some (⟨x0, y0, x0, y0⟩, 2)) ∧
    t.fillCircle x0 y0 0 c ≠ [] := by
  have hwin : t.setWindow x0 y0 x0 y0 = ⟨x0, y0, x0, y0⟩ := by
    simp [TFT.setWindow, hxo, hyo]
  refine ⟨?_, ?_, ?_, ?_⟩
  · intro p hp
    rw [circlePlots_radius0] at hp
    exact List.eq_of_mem_replicate hp
  · rw [circlePlots_radius0]
    intro hnil
    simpa using congrArg List.length hnil
  · intro e he
    rw [fillCircle_radius0, fillRect_unit t x0 y0 c hx0 hx1 hy0 hy1, hwin] at he
    exact List.eq_of_mem_replicate he
  · rw [fillCircle_radius0]
    intro hnil
    simpa using congrArg List.length hnil

/-- Concrete instantiation of `circle_fillCircle_radius0_single_pixel`
at center (5, 5) on a 10×10 panel. -/
theorem circle_fillCircle_radius0_single_pixel_witness :
    (0 : Int) ≤ 5 ∧ (5 : Int) < (TFT.mk 10 10 0 0 0).width ∧
    (0 : Int) ≤ 5 ∧ (5 : Int) < (TFT.mk 10 10 0 0 0).height ∧
    (TFT.mk 10 10 0 0 0).xoff = 0 ∧ (TFT.mk 10 10 0 0 0).yoff = 0 ∧
    ((∀ p ∈ circlePlots 5 5 0 7, p = ((5, 5), 7)) ∧
      circlePlots 5 5 0 7 ≠ [] ∧
      (∀ e ∈ (TFT.mk 10 10 0 0 0).fillCircle 5 5 0 7, e = some (⟨5, 5, 5, 5⟩, 2)) ∧
      (TFT.mk 10 10 0 0 0).fillCircle 5 5 0 7 ≠ []) :=
  ⟨by decide, by decide, by decide, by decide, by decide, by decide,
    circle_fillCircle_radius0_single_pixel (TFT.mk 10 10 0 0 0) 5 5 7
      (by decide) (by decide) (by decide) (by decide) (by decide) (by decide)⟩

/-! ### C6: axis-aligned Bresenham line -/

/-- The Bresenham loop of `line`, with an explicit fuel bound on the
number of iterations (the algorithm visits at most
`|dx| + |dy| + 1` pixels, which is the fuel `line` supplies, so fuel
exhaustion — modelled as `none` — does not occur on the algorithm's
reachable states).  Returns the list of `pixel` calls issued. -/
def lineLoop (fuel : Nat) (x0 y0 x1 y1 dx dy sx sy err : Int) (c : Nat) :
    Option (List ((Int × Int) × Nat)) :=
  match fuel with
  | 0 => none
  | fuel + 1 =>
    if x0 = x1 ∧ y0 = y1 then some [((x0, y0), c)]
    else
      let e2 := 2 * err
      let err2 := if e2 ≥ dy then err + dy else err
      let x02 := if e2 ≥ dy then x0 + sx else x0
      let err3 := if e2 ≤ dx then err2 + dx else err2
      let y02 := if e2 ≤ dx then y0 + sy else y0
      (lineLoop fuel x02 y02 x1 y1 dx dy sx sy err3 c).map (((x0, y0), c) :: ·)

/-- `line(x0, y0, x1, y1, color)`: Bresenham setup
(`dx = abs(x1-x0)`, `sx`, `dy = -abs(y1-y0)`, `sy`, `err = dx + dy`)
followed by the plotting loop. -/
def line (x0 y0 x1 y1 : Int) (c : Nat) : Option (List ((Int × Int) × Nat)) :=
  let dx := |x1 - x0|
  let sx : Int := if x0 < x1 then 1 else -1
  let dy := -|y1 - y0|
  let sy : Int := if y0 < y1 then 1 else -1
  lineLoop (dx - dy + 1).toNat x0 y0 x1 y1 dx dy sx sy (dx + dy) c

/-- C6: `line(0, 0, 4, 0, c)` plots exactly the five pixels
(0,0), (1,0), (2,0), (3,0), (4,0), in order, each exactly once and no
others. -/
theorem line_0_0_4_0 (c : Nat) :
    line 0 0 4 0 c =
      some [((0, 0), c), ((1, 0), c), ((2, 0), c), ((3, 0), c), ((4, 0), c)] := by
  rfl

/-! ### C8: text layout and newline handling -/

/-- A font as consumed by the driver: `height()` and
`get_ch(ch) -> (glyph bytes, char width)`. -/
structure PyFont where
  height : Nat
  get_ch : Char → List Nat × Nat

/-- The character loop of `text(s, x, y, color, bg, spacing)`: returns
the `_draw_char` calls issued, as `(character, cx, y)` triples.
A newline resets `cx` to the starting `x` and advances `y` by
`font_height + 2`; otherwise `_draw_char` is called and `cx` advances
by the drawn character's width plus `spacing`. -/
def textGo (f : PyFont) (x spacing : Int) : List Char → Int → Int → List (Char × Int × Int)
  | [], _, _ => []
  | ch :: rest, cx, y =>
    if ch = '\n' then textGo f x spacing rest x (y + f.height + 2)
    else (ch, cx, y) :: textGo f x spacing rest (cx + (f.get_ch ch).2 + spacing) y

/-- `text(s, x, y, ...)`: iterate the characters of `s` with the
cursor starting at `(x, y)`. -/
def textCalls (f : PyFont) (s : String) (x y spacing : Int) : List (Char × Int × Int) :=
  textGo f x spacing s.toList x y

/-- C8: `text("A\nB", x, y, c)` renders 'A' at `(x, y)` and 'B' at
`(x, y + fontHeight + 2)` — the newline resets the horizontal cursor
to the starting `x` (regardless of the width of 'A') and advances the
vertical cursor by `fontHeight + 2`; and in general a newline does
exactly that to the cursor state. -/
theorem text_newline_resets_x_advances_y (f : PyFont) (x y spacing : Int) :
    textCalls f "A\nB" x y spacing =
      [('A', x, y), ('B', x, y + f.height + 2)] ∧
    (∀ (rest : List Char) (cx cy : Int),
      textGo f x spacing ('\n' :: rest) cx cy =
        textGo f x spacing rest x (cy + f.height + 2)) := by
  constructor
  · rfl
  · intro rest cx cy
    rw [textGo, if_pos rfl]

/-! ### C9: RGB565 sprite blit with color key -/

/-- Decoding of one big-endian RGB565 pixel at byte offset `i`:
`(data[i] << 8) | data[i+1]`.  Out-of-range reads yield 0 here; the
input contract of `blit_rgb565` (exactly `w*h*2` bytes) keeps every
read in range, and C9 assumes it. -/
def decodePix (data : List Nat) (i : Nat) : Nat :=
  (data.getD i 0 <<< 8) ||| data.getD (i + 1) 0

/-- Inner loop of the color-key path of `blit_rgb565`
(`for xx in range(w)`): walks the column indices `cols` carrying the
running byte offset `i`, emitting a `pixel` call for every decoded
pixel different from the key.  Returns the emitted calls and the
final offset. -/
def blitRowGo (data : List Nat) (key : Nat) (x ypos : Int) :
    List Nat → Nat → List ((Int × Int) × Nat) × Nat
  | [], i => ([], i)
  | xx :: rest, i =>
    let c := decodePix data i
    let r := blitRowGo data key x ypos rest (i + 2)
    ((if c ≠ key then [((x + (xx : Int), ypos), c)] else []) ++ r.1, r.2)

/-- Outer loop of the color-key path (`for yy in range(h)`). -/
def blitRowsGo (data : List Nat) (key : Nat) (x y : Int) (w : Nat) :
    List Nat → Nat → List ((Int × Int) × Nat) × Nat
  | [], i => ([], i)
  | yy :: rows, i =>
    let r := blitRowGo data key x (y + (yy : Int)) (List.range w) i
    let rest := blitRowsGo data key x y w rows r.2
    (r.1 ++ rest.1, rest.2)

/-- Result of a `blit_rgb565` call: no bus traffic, a verbatim
streamed block (fast path), or a list of per-pixel writes (color-key
path). -/
inductive BlitResult where
  | noop : BlitResult
  | fast : Window → List Nat → BlitResult
  | slow : List ((Int × Int) × Nat) → BlitResult
deriving DecidableEq

/-- `blit_rgb565(x, y, w, h, data, key)`: no-op for nonpositive
dimensions; without a key, one window-set plus the buffer verbatim;
with a key, the per-pixel transparency-aware loop starting at byte
offset 0. -/
def TFT.blitRgb565 (t : TFT) (x y w h : Int) (data : List Nat) (key : Option Nat) :
    BlitResult :=
  if w ≤ 0 ∨ h ≤ 0 then .noop
  else
    match key with
    | none => .fast (t.setWindow x y (x + w - 1) (y + h - 1)) data
    | some k => .slow (blitRowsGo data k x y w.toNat (List.range h.toNat) 0).1

theorem blitRowGo_snd (data : List Nat) (key : Nat) (x ypos : Int) :
    ∀ (cols : List Nat) (i : Nat),
      (blitRowGo data key x ypos cols i).2 = i + 2 * cols.length := by
  intro cols
  induction cols with
  | nil => intro i; simp [blitRowGo]
  | cons xx rest ih =>
    intro i
    simp only [blitRowGo, ih, List.length_cons]
    ring

theorem blitRowGo_mem (data : List Nat) (key : Nat) (x ypos : Int) :
    ∀ (n s i : Nat) (e : (Int × Int) × Nat),
      (e ∈ (blitRowGo data key x ypos (List.range' s n) i).1 ↔
        ∃ j, j < n ∧ decodePix data (i + 2 * j) ≠ key ∧
          e = ((x + ((s + j : Nat) : Int), ypos), decodePix data (i + 2 * j))) := by
  intro n
  induction n with
  | zero => intro s i e; simp [blitRowGo]
  | succ m ih =>
    intro s i e
    rw [List.range'_succ]
    simp only [blitRowGo, List.mem_append]
    constructor
    · intro hmem
      rcases hmem with hmem | hmem
      · refine ⟨0, by omega, ?_, ?_⟩ <;>
          [skip; skip] <;>
          · split at hmem <;> simp_all
      · rcases (ih (s + 1) (i + 2) e).1 hmem with ⟨j, hj, hne, he⟩
        refine ⟨j + 1, by omega, ?_, ?_⟩
        · have : i + 2 + 2 * j = i + 2 * (j + 1) := by ring
          rwa [this] at hne
        · have e1 : i + 2 + 2 * j = i + 2 * (j + 1) := by ring
          have e2 : s + 1 + j = s + (j + 1) := by ring
          rwa [e1, e2] at he
    · rintro ⟨j, hj, hne, he⟩
      match j with
      | 0 =>
        left
        rw [if_pos (by simpa using hne)]
        simpa using he
      | j + 1 =>
        right
        refine (ih (s + 1) (i + 2) e).2 ⟨j, by omega, ?_, ?_⟩
        · have : i + 2 + 2 * j = i + 2 * (j + 1) := by ring
          rwa [this]
        · have e1 : i + 2 + 2 * j = i + 2 * (j + 1) := by ring
          have e2 : s + 1 + j = s + (j + 1) := by ring
          rwa [e1, e2]

theorem blitRowsGo_mem (data : List Nat) (key : Nat) (x y : Int) (w : Nat) :
    ∀ (m s i : Nat) (e : (Int × Int) × Nat),
      (e ∈ (blitRowsGo data key x y w (List.range' s m) i).1 ↔
        ∃ yy, yy < m ∧
          e ∈ (blitRowGo data key x (y + ((s + yy : Nat) : Int)) (List.range w)
                (i + 2 * w * yy)).1) := by
  intro m
  induction m with
  | zero => intro s i e; simp [blitRowsGo]
  | succ m ih =>
    intro s i e
    rw [List.range'_succ]
    simp only [blitRowsGo, List.mem_append]
    rw [blitRowGo_snd data key x (y + (s : Int)) (List.range w) i, List.length_range]
    constructor
    · intro hmem
      rcases hmem with hmem | hmem
      · exact ⟨0, by omega, by simpa using hmem⟩
      · rcases (ih (s + 1) (i + 2 * w) e).1 hmem with ⟨yy, hyy, hin⟩
        refine ⟨yy + 1, by omega, ?_⟩
        have e1 : i + 2 * w + 2 * w * yy = i + 2 * w * (yy + 1) := by ring
        have e2 : s + 1 + yy = s + (yy + 1) := by ring
        rwa [e1, e2] at hin
    · rintro ⟨yy, hyy, hin⟩
      match yy with
      | 0 =>
        left
        simpa using hin
      | yy + 1 =>
        right
        refine (ih (s + 1) (i + 2 * w) e).2 ⟨yy, by omega, ?_⟩
        have e1 : i + 2 * w + 2 * w * yy = i + 2 * w * (yy + 1) := by ring
        have e2 : s + 1 + yy = s + (yy + 1) := by ring
        rwa [e1, e2]

theorem blit_mem_char (data : List Nat) (key : Nat) (x y : Int) (w hN : Nat)
    (e : (Int × Int) × Nat) :
    e ∈ (blitRowsGo data key x y w (List.range hN) 0).1 ↔
      ∃ yy, yy < hN ∧ ∃ j, j < w ∧
        decodePix data (2 * w * yy + 2 * j) ≠ key ∧
        e = ((x + (j : Int), y + (yy : Int)), decodePix data (2 * w * yy + 2 * j)) := by
  rw [List.range_eq_range', blitRowsGo_mem]
  constructor
  · rintro ⟨yy, hyy, hin⟩
    rw [List.range_eq_range', blitRowGo_mem] at hin
    rcases hin with ⟨j, hj, hne, he⟩
    have e1 : 0 + 2 * w * yy + 2 * j = 2 * w * yy + 2 * j := by ring
    have e2 : (0 + j : Nat) = j := by omega
    have e3 : (0 + yy : Nat) = yy := by omega
    rw [e1] at hne he
    rw [e2, e3] at he
    exact ⟨yy, hyy, j, hj, hne, he⟩
  · rintro ⟨yy, hyy, j, hj, hne, he⟩
    refine ⟨yy, hyy, ?_⟩
    rw [List.range_eq_range', blitRowGo_mem]
    refine ⟨j, hj, ?_, ?_⟩
    · have e1 : 0 + 2 * w * yy + 2 * j = 2 * w * yy + 2 * j := by ring
      rwa [e1]
    · have e1 : 0 + 2 * w * yy + 2 * j = 2 * w * yy + 2 * j := by ring
      have e2 : (0 + j : Nat) = j := by omega
      have e3 : (0 + yy : Nat) = yy := by omega
      rw [e1, e2, e3]
      exact he

/-- C9: on the color-key path of `blit_rgb565(x, y, w, h, data, key)`
with positive dimensions and a `w*h*2`-byte buffer, every source pixel
whose decoded value differs from the key is written (as a `pixel`
call) at its position `(x + column, y + row)`, every source pixel
equal to the key is skipped (nothing is written at its position), and
nonpositive dimensions make the call a no-op. -/
theorem blitRgb565_colorkey_skips_key (t : TFT) (x y w h : Int) (data : List Nat)
    (key : Nat) (hw : 0 < w) (hh : 0 < h)
    (hlen : data.length = 2 * (w.toNat * h.toNat)) :
    t.blitRgb565 x y w h data (some key) =
      .slow (blitRowsGo data key x y w.toNat (List.range h.toNat) 0).1 ∧
    (∀ xx yy : Nat, xx < w.toNat → yy < h.toNat →
      (decodePix data ((yy * w.toNat + xx) * 2) ≠ key →
        ((x + (xx : Int), y + (yy : Int)), decodePix data ((yy * w.toNat + xx) * 2)) ∈
          (blitRowsGo data key x y w.toNat (List.range h.toNat) 0).1) ∧
      (∀ cv, ((x + (xx : Int), y + (yy : Int)), cv) ∈
          (blitRowsGo data key x y w.toNat (List.range h.toNat) 0).1 →
        cv = decodePix data ((yy * w.toNat + xx) * 2) ∧
        decodePix data ((yy * w.toNat + xx) * 2) ≠ key)) ∧
    (∀ w2 h2 : Int, w2 ≤ 0 ∨ h2 ≤ 0 →
      t.blitRgb565 x y w2 h2 data (some key) = .noop) := by
  refine ⟨?_, ?_, ?_⟩
  · simp only [TFT.blitRgb565]
    rw [if_neg (by omega)]
  · intro xx yy hxx hyy
    have eidx : 2 * w.toNat * yy + 2 * xx = (yy * w.toNat + xx) * 2 := by ring
    constructor
    · intro hne
      rw [blit_mem_char]
      refine ⟨yy, hyy, xx, hxx, ?_, ?_⟩
      · rwa [eidx]
      · rw [eidx]
    · intro cv hin
      rw [blit_mem_char] at hin
      rcases hin with ⟨yy2, hyy2, j, hj, hne, he⟩
      simp only [Prod.mk.injEq] at he
      obtain ⟨⟨hx, hy⟩, hcv⟩ := he
      have hj2 : j = xx := by omega
      have hyy3 : yy2 = yy := by omega
      subst hj2 hyy3
      rw [eidx] at hne hcv
      exact ⟨hcv, hne⟩
  · intro w2 h2 hle
    simp only [TFT.blitRgb565]
    rw [if_pos hle]

/-- Concrete instantiation of `blitRgb565_colorkey_skips_key`: a 2×1
sprite containing one key pixel and one non-key pixel. -/
theorem blitRgb565_colorkey_skips_key_witness :
    (0 : Int) < 2 ∧ (0 : Int) < 1 ∧
    ([0, 1, 0, 2] : List Nat).length = 2 * ((2 : Int).toNat * (1 : Int).toNat) ∧
    ((TFT.mk 10 10 0 0 0).blitRgb565 3 4 2 1 [0, 1, 0, 2] (some 1) =
        .slow (blitRowsGo [0, 1, 0, 2] 1 3 4 (2 : Int).toNat (List.range (1 : Int).toNat) 0).1 ∧
      (∀ xx yy : Nat, xx < (2 : Int).toNat → yy < (1 : Int).toNat →
        (decodePix [0, 1, 0, 2] ((yy * (2 : Int).toNat + xx) * 2) ≠ 1 →
          (((3 : Int) + (xx : Int), (4 : Int) + (yy : Int)),
              decodePix [0, 1, 0, 2] ((yy * (2 : Int).toNat + xx) * 2)) ∈
            (blitRowsGo [0, 1, 0, 2] 1 3 4 (2 : Int).toNat (List.range (1 : Int).toNat) 0).1) ∧
        (∀ cv, (((3 : Int) + (xx : Int), (4 : Int) + (yy : Int)), cv) ∈
            (blitRowsGo [0, 1, 0, 2] 1 3 4 (2 : Int).toNat (List.range (1 : Int).toNat) 0).1 →
          cv = decodePix [0, 1, 0, 2] ((yy * (2 : Int).toNat + xx) * 2) ∧
          decodePix [0, 1, 0, 2] ((yy * (2 : Int).toNat + xx) * 2) ≠ 1)) ∧
      (∀ w2 h2 : Int, w2 ≤ 0 ∨ h2 ≤ 0 →
        (TFT.mk 10 10 0 0 0).blitRgb565 3 4 w2 h2 [0, 1, 0, 2] (some 1) = .noop)) :=
  ⟨by decide, by decide, by decide,
    blitRgb565_colorkey_skips_key (TFT.mk 10 10 0 0 0) 3 4 2 1 [0, 1, 0, 2] 1
      (by decide) (by decide) (by decide)⟩

/-! ### C7 and C10: character rendering -/

/-- The glyph bit test shared by both rendering paths of `_draw_char`:
for glyph column `col` and row `row`, the bit lives at byte index
`col * bytes_per_col + row / 8` (with `bytes_per_col` =
`ceil(font_height / 8)`), bit position `row % 8`; an index at or past
the end of the glyph buffer reads as bit-off. -/
def glyphBit (glyph : List Nat) (bytes_per_col col row : Nat) : Bool :=
  if col * bytes_per_col + row / 8 < glyph.length then
    (glyph.getD (col * bytes_per_col + row / 8) 0).testBit (row % 8)
  else false

/-- `bytearray(n * 2)` after the background-fill loop of the opaque
path: `n` pixels of `hi, lo` byte pairs. -/
def bgFill : Nat → Nat → Nat → List Nat
  | 0, _, _ => []
  | n + 1, hi, lo => hi :: lo :: bgFill n hi lo

/-- One step of the glyph-overlay loop of the opaque path: if the
glyph bit for `(col, row)` is set, write the foreground bytes at
buffer offset `p = (row * w + col) * 2`. -/
def overlayCell (glyph : List Nat) (bpc w fgHi fgLo col row : Nat) (buf : List Nat) :
    List Nat :=
  if glyphBit glyph bpc col row then
    (buf.set ((row * w + col) * 2) fgHi).set ((row * w + col) * 2 + 1) fgLo
  else buf

/-- The full overlay double loop (`for col in range(char_width): for
row in range(font_height): ...`) of the opaque path. -/
def overlayGlyph (glyph : List Nat) (bpc w cw fh fgHi fgLo : Nat) (buf : List Nat) :
    List Nat :=
  (List.range cw).foldl (fun b col =>
    (List.range fh).foldl (fun b2 row => overlayCell glyph bpc w fgHi fgLo col row b2) b) buf

/-- The tile buffer built by the opaque (fast) path of `_draw_char`:
a `(char_width + 1) × (font_height + 1)` tile, background-filled and
then overlaid with the glyph in the foreground color. -/
def drawCharTileBuf (glyph : List Nat) (cw fh color bg : Nat) : List Nat :=
  overlayGlyph glyph ((fh + 7) / 8) (cw + 1) cw fh
    ((color >>> 8) &&& 0xFF) (color &&& 0xFF)
    (bgFill ((cw + 1) * (fh + 1)) ((bg >>> 8) &&& 0xFF) (bg &&& 0xFF))

/-- The opaque path of `_draw_char`: one `_set_window` over the
`(char_width + 1) × (font_height + 1)` tile at `(x, y)` — with no
bounds check of any kind — followed by the tile buffer streamed in
one write. -/
def drawCharFast (t : TFT) (glyph : List Nat) (cw fh : Nat) (x y : Int)
    (color bg : Nat) : Window × List Nat :=
  (t.setWindow x y (x + ((cw + 1 : Nat) : Int) - 1) (y + ((fh + 1 : Nat) : Int) - 1),
    drawCharTileBuf glyph cw fh color bg)

/-- The transparent path of `_draw_char` (the general path with
`bg = None`; its `elif bg is not None` branch and trailing spacing
lines are unreachable in that case, since the fast path handles every
`bg is not None` call): the `pixel` calls issued for the set glyph
bits. -/
def drawCharTransparent (glyph : List Nat) (cw fh : Nat) (x y : Int) (color : Nat) :
    List ((Int × Int) × Nat) :=
  (List.range cw).flatMap (fun col =>
    (List.range fh).filterMap (fun row =>
      if glyphBit glyph ((fh + 7) / 8) col row then
        some ((x + (col : Int), y + (row : Int)), color)
      else none))

/-- Events of a `_draw_char` call: either the opaque tile blit or the
transparent per-pixel plot. -/
inductive DrawCharResult where
  | tileBlit : Window → List Nat → DrawCharResult
  | transparent : List ((Int × Int) × Nat) → DrawCharResult

/-- `_draw_char(ch, x, y, color, bg)`: looks up the glyph and width,
dispatches on `bg`, and returns the drawn character's width. -/
def TFT.drawChar (t : TFT) (f : PyFont) (ch : Char) (x y : Int) (color : Nat)
    (bg : Option Nat) : DrawCharResult × Nat :=
  match bg with
  | some b =>
    (.tileBlit (drawCharFast t (f.get_ch ch).1 (f.get_ch ch).2 f.height x y color b).1
      (drawCharFast t (f.get_ch ch).1 (f.get_ch ch).2 f.height x y color b).2,
      (f.get_ch ch).2)
  | none =>
    (.transparent (drawCharTransparent (f.get_ch ch).1 (f.get_ch ch).2 f.height x y color),
      (f.get_ch ch).2)

theorem set_getD_ne {l : List Nat} {i j : Nat} (a : Nat) (h : i ≠ j) :
    (l.set i a).getD j 0 = l.getD j 0 := by
  simp [List.getD_eq_getElem?_getD, List.getElem?_set_ne h]

theorem set_getD_self {l : List Nat} {i : Nat} (a : Nat) (h : i < l.length) :
    (l.set i a).getD i 0 = a := by
  simp [List.getD_eq_getElem?_getD, List.getElem?_set_self h]

theorem overlayCell_length (glyph : List Nat) (bpc w fgHi fgLo col row : Nat)
    (buf : List Nat) :
    (overlayCell glyph bpc w fgHi fgLo col row buf).length = buf.length := by
  unfold overlayCell
  split <;> simp

theorem foldl_overlayCell_length (glyph : List Nat) (bpc w fgHi fgLo col : Nat) :
    ∀ (rows : List Nat) (buf : List Nat),
      (rows.foldl (fun b2 row => overlayCell glyph bpc w fgHi fgLo col row b2) buf).length
        = buf.length := by
  intro rows
  induction rows with
  | nil => intro buf; rfl
  | cons r rest ih =>
    intro buf
    rw [List.foldl_cons, ih, overlayCell_length]

theorem bgFill_length (hi lo : Nat) : ∀ n : Nat, (bgFill n hi lo).length = 2 * n := by
  intro n
  induction n with
  | zero => rfl
  | succ m ih => simp only [bgFill, List.length_cons, ih]; ring

theorem bgFill_getD (hi lo : Nat) : ∀ (n i : Nat), i < n →
    (bgFill n hi lo).getD (2 * i) 0 = hi ∧ (bgFill n hi lo).getD (2 * i + 1) 0 = lo := by
  intro n
  induction n with
  | zero => intro i hi0; omega
  | succ m ih =>
    intro i hilt
    match i with
    | 0 => exact ⟨rfl, rfl⟩
    | i + 1 =>
      have e1 : 2 * (i + 1) = 2 * i + 1 + 1 := by ring
      rw [e1]
      simp only [bgFill, List.getD_cons_succ]
      exact ih i (by omega)

theorem cell_ne_of_row_ne {w row row2 col : Nat} (hw : 0 < w) (h : row ≠ row2) :
    row * w + col ≠ row2 * w + col := by
  intro he
  apply h
  have hm : row * w = row2 * w := by omega
  exact Nat.eq_of_mul_eq_mul_right hw hm

theorem cell_ne_of_col_ne {w row row2 col col2 : Nat} (hc1 : col < w) (hc2 : col2 < w)
    (h : col ≠ col2) : row * w + col ≠ row2 * w + col2 := by
  intro he
  apply h
  have hm : (w * row + col) % w = (w * row2 + col2) % w := by
    rw [Nat.mul_comm w row, Nat.mul_comm w row2, he]
  rwa [Nat.mul_add_mod, Nat.mul_add_mod, Nat.mod_eq_of_lt hc1, Nat.mod_eq_of_lt hc2] at hm

theorem overlayCell_getD_other (glyph : List Nat) (bpc w fgHi fgLo col row : Nat)
    (buf : List Nat) (tgt : Nat)
    (h1 : (row * w + col) * 2 ≠ tgt) (h2 : (row * w + col) * 2 + 1 ≠ tgt) :
    (overlayCell glyph bpc w fgHi fgLo col row buf).getD tgt 0 = buf.getD tgt 0 := by
  unfold overlayCell
  split
  · rw [set_getD_ne _ h2, set_getD_ne _ h1]
  · rfl

theorem foldl_overlayCell_getD_preserve (glyph : List Nat) (bpc w fgHi fgLo col tgt : Nat) :
    ∀ (rows : List Nat),
      (∀ row ∈ rows, (row * w + col) * 2 ≠ tgt ∧ (row * w + col) * 2 + 1 ≠ tgt) →
      ∀ (buf : List Nat),
        ((rows.foldl (fun b2 row => overlayCell glyph bpc w fgHi fgLo col row b2) buf).getD
          tgt 0) = buf.getD tgt 0 := by
  intro rows
  induction rows with
  | nil => intro _ buf; rfl
  | cons r rest ih =>
    intro hr buf
    rw [List.foldl_cons, ih (fun row hrow => hr row (List.mem_cons_of_mem _ hrow))]
    obtain ⟨h1, h2⟩ := hr r (List.mem_cons_self _ _)
    exact overlayCell_getD_other glyph bpc w fgHi fgLo col r buf tgt h1 h2

theorem innerFold_getD_hit (glyph : List Nat) (bpc w fgHi fgLo col row0 : Nat)
    (hw : 0 < w) :
    ∀ (n s : Nat) (buf : List Nat), s ≤ row0 → row0 < s + n →
      (row0 * w + col) * 2 + 1 < buf.length →
      (((List.range' s n).foldl
          (fun b2 row => overlayCell glyph bpc w fgHi fgLo col row b2) buf).getD
            ((row0 * w + col) * 2) 0
        = if glyphBit glyph bpc col row0 then fgHi
          else buf.getD ((row0 * w + col) * 2) 0) ∧
      (((List.range' s n).foldl
          (fun b2 row => overlayCell glyph bpc w fgHi fgLo col row b2) buf).getD
            ((row0 * w + col) * 2 + 1) 0
        = if glyphBit glyph bpc col row0 then fgLo
          else buf.getD ((row0 * w + col) * 2 + 1) 0) := by
  intro n
  induction n with
  | zero => intro s buf h1 h2 _; omega
  | succ m ih =>
    intro s buf hs hlt hlen
    rw [List.range'_succ, List.foldl_cons]
    rcases eq_or_ne s row0 with he | hne
    · subst he
      have hrest : ∀ row ∈ List.range' (s + 1) m, row ≠ s := by
        intro row hrow
        rw [List.mem_range'] at hrow
        omega
      have hcells : ∀ row ∈ List.range' (s + 1) m,
          row * w + col ≠ s * w + col := fun row hrow =>
        cell_ne_of_row_ne hw (hrest row hrow)
      constructor
      · rw [foldl_overlayCell_getD_preserve glyph bpc w fgHi fgLo col _ _
          (fun row hrow => by
            have := hcells row hrow
            constructor <;> omega)]
        unfold overlayCell
        split
        · rw [set_getD_ne _ (by omega), set_getD_self _ (by omega)]
        · rfl
      · rw [foldl_overlayCell_getD_preserve glyph bpc w fgHi fgLo col _ _
          (fun row hrow => by
            have := hcells row hrow
            constructor <;> omega)]
        unfold overlayCell
        split
        · rw [set_getD_self _ (by simp only [List.length_set]; omega)]
        · rfl
    · have hcell : s * w + col ≠ row0 * w + col := cell_ne_of_row_ne hw hne
      have hpres0 : (overlayCell glyph bpc w fgHi fgLo col s buf).getD
          ((row0 * w + col) * 2) 0 = buf.getD ((row0 * w + col) * 2) 0 :=
        overlayCell_getD_other glyph bpc w fgHi fgLo col s buf _ (by omega) (by omega)
      have hpres1 : (overlayCell glyph bpc w fgHi fgLo col s buf).getD
          ((row0 * w + col) * 2 + 1) 0 = buf.getD ((row0 * w + col) * 2 + 1) 0 :=
        overlayCell_getD_other glyph bpc w fgHi fgLo col s buf _ (by omega) (by omega)
      obtain ⟨ihA, ihB⟩ := ih (s + 1) (overlayCell glyph bpc w fgHi fgLo col s buf)
        (by omega) (by omega) (by rw [overlayCell_length]; exact hlen)
      constructor
      · rw [ihA, hpres0]
      · rw [ihB, hpres1]

theorem foldl_inner_length (glyph : List Nat) (bpc w fgHi fgLo fh : Nat) :
    ∀ (cols : List Nat) (buf : List Nat),
      ((cols).foldl (fun b col =>
        (List.range fh).foldl (fun b2 row => overlayCell glyph bpc w fgHi fgLo col row b2) b)
        buf).length = buf.length := by
  intro cols
  induction cols with
  | nil => intro buf; rfl
  | cons c rest ih =>
    intro buf
    rw [List.foldl_cons, ih, foldl_overlayCell_length]


theorem foldl_outer_getD_preserve (glyph : List Nat) (bpc w fgHi fgLo fh tgt : Nat) :
    ∀ (cols : List Nat),
      (∀ col ∈ cols, ∀ row : Nat,
        (row * w + col) * 2 ≠ tgt ∧ (row * w + col) * 2 + 1 ≠ tgt) →
      ∀ (buf : List Nat),
        ((cols.foldl (fun b col =>
          (List.range fh).foldl (fun b2 row => overlayCell glyph bpc w fgHi fgLo col row b2) b)
          buf).getD tgt 0) = buf.getD tgt 0 := by
  intro cols
  induction cols with
  | nil => intro _ buf; rfl
  | cons c rest ih =>
    intro hc buf
    rw [List.foldl_cons, ih (fun col hcol => hc col (List.mem_cons_of_mem _ hcol))]
    exact foldl_overlayCell_getD_preserve glyph bpc w fgHi fgLo c tgt (List.range fh)
      (fun row _ => hc c (List.mem_cons_self _ _) row) buf

theorem outerFold_getD_hit (glyph : List Nat) (bpc w fgHi fgLo fh col0 row0 : Nat)
    (hw : col0 < w) (hr : row0 < fh) :
    ∀ (n s : Nat) (buf : List Nat), s ≤ col0 → col0 < s + n → s + n ≤ w →
      (row0 * w + col0) * 2 + 1 < buf.length →
      (((List.range' s n).foldl (fun b col =>
          (List.range fh).foldl (fun b2 row => overlayCell glyph bpc w fgHi fgLo col row b2) b)
          buf).getD ((row0 * w + col0) * 2) 0
        = if glyphBit glyph bpc col0 row0 then fgHi
          else buf.getD ((row0 * w + col0) * 2) 0) ∧
      (((List.range' s n).foldl (fun b col =>
          (List.range fh).foldl (fun b2 row => overlayCell glyph bpc w fgHi fgLo col row b2) b)
          buf).getD ((row0 * w + col0) * 2 + 1) 0
        = if glyphBit glyph bpc col0 row0 then fgLo
          else buf.getD ((row0 * w + col0) * 2 + 1) 0) := by
  intro n
  induction n with
  | zero => intro s buf h1 h2 _ _; omega
  | succ m ih =>
    intro s buf hs hlt hnw hlen
    rw [List.range'_succ, List.foldl_cons]
    rcases eq_or_ne s col0 with he | hne
    · subst he
      have hpres : ∀ col2 ∈ List.range' (s + 1) m, ∀ row : Nat,
          (row * w + col2) * 2 ≠ (row0 * w + s) * 2 ∧
          (row * w + col2) * 2 + 1 ≠ (row0 * w + s) * 2 := by
        intro col2 hcol2 row
        rw [List.mem_range'] at hcol2
        have := @cell_ne_of_col_ne w row row0 col2 s
          (by omega : col2 < w) hw (by omega : col2 ≠ s)
        constructor <;> omega
      have hpres1 : ∀ col2 ∈ List.range' (s + 1) m, ∀ row : Nat,
          (row * w + col2) * 2 ≠ (row0 * w + s) * 2 + 1 ∧
          (row * w + col2) * 2 + 1 ≠ (row0 * w + s) * 2 + 1 := by
        intro col2 hcol2 row
        rw [List.mem_range'] at hcol2
        have := @cell_ne_of_col_ne w row row0 col2 s
          (by omega : col2 < w) hw (by omega : col2 ≠ s)
        constructor <;> omega
      obtain ⟨hitA, hitB⟩ := innerFold_getD_hit glyph bpc w fgHi fgLo s row0
        (by omega) fh 0 buf (by omega) (by omega) hlen
      constructor
      · rw [foldl_outer_getD_preserve glyph bpc w fgHi fgLo fh _ _ hpres]
        rw [← List.range_eq_range'] at hitA
        exact hitA
      · rw [foldl_outer_getD_preserve glyph bpc w fgHi fgLo fh _ _ hpres1]
        rw [← List.range_eq_range'] at hitB
        exact hitB
    · have hcellpres : ∀ row : Nat, (row * w + s) * 2 ≠ (row0 * w + col0) * 2 ∧
          (row * w + s) * 2 + 1 ≠ (row0 * w + col0) * 2 := by
        intro row
        have := @cell_ne_of_col_ne w row row0 s col0
          (by omega : s < w) hw hne
        constructor <;> omega
      have hcellpres1 : ∀ row : Nat, (row * w + s) * 2 ≠ (row0 * w + col0) * 2 + 1 ∧
          (row * w + s) * 2 + 1 ≠ (row0 * w + col0) * 2 + 1 := by
        intro row
        have := @cell_ne_of_col_ne w row row0 s col0
          (by omega : s < w) hw hne
        constructor <;> omega
      have hp0 : ((List.range fh).foldl
          (fun b2 row => overlayCell glyph bpc w fgHi fgLo s row b2) buf).getD
            ((row0 * w + col0) * 2) 0 = buf.getD ((row0 * w + col0) * 2) 0 :=
        foldl_overlayCell_getD_preserve glyph bpc w fgHi fgLo s _ (List.range fh)
          (fun row _ => hcellpres row) buf
      have hp1 : ((List.range fh).foldl
          (fun b2 row => overlayCell glyph bpc w fgHi fgLo s row b2) buf).getD
            ((row0 * w + col0) * 2 + 1) 0 = buf.getD ((row0 * w + col0) * 2 + 1) 0 :=
        foldl_overlayCell_getD_preserve glyph bpc w fgHi fgLo s _ (List.range fh)
          (fun row _ => hcellpres1 row) buf
      obtain ⟨ihA, ihB⟩ := ih (s + 1)
        ((List.range fh).foldl (fun b2 row => overlayCell glyph bpc w fgHi fgLo s row b2) buf)
        (by omega) (by omega) (by omega)
        (by rw [foldl_overlayCell_length]; exact hlen)
      constructor
      · rw [ihA, hp0]
      · rw [ihB, hp1]

theorem drawCharTileBuf_getD (glyph : List Nat) (cw fh color bg col0 row0 : Nat)
    (hc : col0 < cw) (hr : row0 < fh) :
    ((drawCharTileBuf glyph cw fh color bg).getD ((row0 * (cw + 1) + col0) * 2) 0
      = if glyphBit glyph ((fh + 7) / 8) col0 row0 then (color >>> 8) &&& 0xFF
        else (bg >>> 8) &&& 0xFF) ∧
    ((drawCharTileBuf glyph cw fh color bg).getD ((row0 * (cw + 1) + col0) * 2 + 1) 0
      = if glyphBit glyph ((fh + 7) / 8) col0 row0 then color &&& 0xFF
        else bg &&& 0xFF) := by
  have hcell : row0 * (cw + 1) + col0 < (cw + 1) * (fh + 1) := by
    obtain ⟨k, rfl⟩ : ∃ k, fh = k + 1 := ⟨fh - 1, by omega⟩
    have h1 : row0 * (cw + 1) ≤ k * (cw + 1) := Nat.mul_le_mul_right _ (by omega)
    have h2 : (cw + 1) * (k + 1 + 1) = k * (cw + 1) + 2 * cw + 2 := by ring
    omega
  have hlen : (row0 * (cw + 1) + col0) * 2 + 1 <
      (bgFill ((cw + 1) * (fh + 1)) ((bg >>> 8) &&& 0xFF) (bg &&& 0xFF)).length := by
    rw [bgFill_length]
    omega
  unfold drawCharTileBuf overlayGlyph
  obtain ⟨hA, hB⟩ := outerFold_getD_hit glyph ((fh + 7) / 8) (cw + 1)
    ((color >>> 8) &&& 0xFF) (color &&& 0xFF) fh col0 row0 (by omega) hr cw 0
    (bgFill ((cw + 1) * (fh + 1)) ((bg >>> 8) &&& 0xFF) (bg &&& 0xFF))
    (by omega) (by omega) (by omega) hlen
  obtain ⟨hbg0, hbg1⟩ := bgFill_getD ((bg >>> 8) &&& 0xFF) (bg &&& 0xFF)
    ((cw + 1) * (fh + 1)) (row0 * (cw + 1) + col0) hcell
  have e2 : (row0 * (cw + 1) + col0) * 2 = 2 * (row0 * (cw + 1) + col0) := by ring
  rw [← List.range_eq_range'] at hA hB
  constructor
  · rw [hA, e2, hbg0]
  · rw [hB, e2, hbg1]

theorem glyphBit_eq_true_iff (glyph : List Nat) (bpc col row : Nat) :
    glyphBit glyph bpc col row = true ↔
      (col * bpc + row / 8 < glyph.length ∧
        (glyph.getD (col * bpc + row / 8) 0).testBit (row % 8)) := by
  unfold glyphBit
  split
  · simp_all
  · simp_all

theorem mem_drawCharTransparent (glyph : List Nat) (cw fh : Nat) (x y : Int)
    (color : Nat) (col0 row0 : Nat) (hc : col0 < cw) (hr : row0 < fh) (cv : Nat) :
    (((x + (col0 : Int), y + (row0 : Int)), cv) ∈
        drawCharTransparent glyph cw fh x y color) ↔
      (cv = color ∧ glyphBit glyph ((fh + 7) / 8) col0 row0 = true) := by
  unfold drawCharTransparent
  rw [List.mem_flatMap]
  constructor
  · rintro ⟨col, hcol, hmem⟩
    rw [List.mem_filterMap] at hmem
    obtain ⟨row, hrow, heq⟩ := hmem
    rw [List.mem_range] at hcol hrow
    split at heq
    · next hbit =>
      simp only [Option.some.injEq, Prod.mk.injEq] at heq
      obtain ⟨⟨hx, hy⟩, hcv⟩ := heq
      have hcol0 : col = col0 := by omega
      have hrow0 : row = row0 := by omega
      subst hcol0 hrow0
      exact ⟨hcv.symm, hbit⟩
    · exact absurd heq (by simp)
  · rintro ⟨hcv, hbit⟩
    subst hcv
    refine ⟨col0, List.mem_range.mpr hc, ?_⟩
    rw [List.mem_filterMap]
    exact ⟨row0, List.mem_range.mpr hr, by rw [if_pos hbit]⟩

/-- C7: in `_draw_char`, the glyph bit for column `col` and row `row`
is read from byte index `col * ceil(fontHeight/8) + (row div 8)` at
bit position `row mod 8`; on the transparent path a pixel call lands
at `(x+col, y+row)` exactly when that byte index is in range and the
bit is set; on the opaque path the tile cell for `(col, row)` carries
the foreground bytes exactly under the same condition and the
background bytes otherwise; in particular a glyph buffer too short for
the index is treated as bit-off (no pixel drawn) on both paths, and
never raises (all the functions involved are total). -/
theorem drawChar_bit_formula_truncation_safe (glyph : List Nat) (cw fh : Nat)
    (x y : Int) (color bg : Nat) (col row : Nat) (hc : col < cw) (hr : row < fh) :
    ((((x + (col : Int), y + (row : Int)), color) ∈
        drawCharTransparent glyph cw fh x y color) ↔
      (col * ((fh + 7) / 8) + row / 8 < glyph.length ∧
        (glyph.getD (col * ((fh + 7) / 8) + row / 8) 0).testBit (row % 8))) ∧
    ((drawCharTileBuf glyph cw fh color bg).getD ((row * (cw + 1) + col) * 2) 0
      = if col * ((fh + 7) / 8) + row / 8 < glyph.length ∧
            (glyph.getD (col * ((fh + 7) / 8) + row / 8) 0).testBit (row % 8)
          then (color >>> 8) &&& 0xFF else (bg >>> 8) &&& 0xFF) ∧
    ((drawCharTileBuf glyph cw fh color bg).getD ((row * (cw + 1) + col) * 2 + 1) 0
      = if col * ((fh + 7) / 8) + row / 8 < glyph.length ∧
            (glyph.getD (col * ((fh + 7) / 8) + row / 8) 0).testBit (row % 8)
          then color &&& 0xFF else bg &&& 0xFF) ∧
    (glyph.length ≤ col * ((fh + 7) / 8) + row / 8 →
      ∀ cv : Nat, (((x + (col : Int), y + (row : Int)), cv) ∉
        drawCharTransparent glyph cw fh x y color)) := by
  have hbit := glyphBit_eq_true_iff glyph ((fh + 7) / 8) col row
  obtain ⟨hbuf0, hbuf1⟩ := drawCharTileBuf_getD glyph cw fh color bg col row hc hr
  refine ⟨?_, ?_, ?_, ?_⟩
  · rw [mem_drawCharTransparent glyph cw fh x y color col row hc hr color]
    rw [← hbit]
    simp
  · rw [hbuf0]
    by_cases hb : glyphBit glyph ((fh + 7) / 8) col row = true
    · rw [if_pos hb, if_pos (hbit.mp hb)]
    · rw [if_neg hb, if_neg (fun hcond => hb (hbit.mpr hcond))]
  · rw [hbuf1]
    by_cases hb : glyphBit glyph ((fh + 7) / 8) col row = true
    · rw [if_pos hb, if_pos (hbit.mp hb)]
    · rw [if_neg hb, if_neg (fun hcond => hb (hbit.mpr hcond))]
  · intro hlong cv hmem
    rw [mem_drawCharTransparent glyph cw fh x y color col row hc hr cv] at hmem
    have := hbit.mp hmem.2
    omega

/-- Concrete instantiation of `drawChar_bit_formula_truncation_safe`:
a glyph truncated to a single byte, probed at column 1, row 3 of a
5×7 font (byte index 1, out of range). -/
theorem drawChar_bit_formula_truncation_safe_witness :
    (1 : Nat) < 5 ∧ (3 : Nat) < 7 ∧
    (((((0 : Int) + ((1 : Nat) : Int), (0 : Int) + ((3 : Nat) : Int)), (9 : Nat)) ∈
        drawCharTransparent [255] 5 7 0 0 9 ↔
      (1 * ((7 + 7) / 8) + 3 / 8 < ([255] : List Nat).length ∧
        (([255] : List Nat).getD (1 * ((7 + 7) / 8) + 3 / 8) 0).testBit (3 % 8))) ∧
    ((drawCharTileBuf [255] 5 7 9 4).getD ((3 * (5 + 1) + 1) * 2) 0
      = if 1 * ((7 + 7) / 8) + 3 / 8 < ([255] : List Nat).length ∧
            (([255] : List Nat).getD (1 * ((7 + 7) / 8) + 3 / 8) 0).testBit (3 % 8)
          then (9 >>> 8) &&& 0xFF else (4 >>> 8) &&& 0xFF) ∧
    ((drawCharTileBuf [255] 5 7 9 4).getD ((3 * (5 + 1) + 1) * 2 + 1) 0
      = if 1 * ((7 + 7) / 8) + 3 / 8 < ([255] : List Nat).length ∧
            (([255] : List Nat).getD (1 * ((7 + 7) / 8) + 3 / 8) 0).testBit (3 % 8)
          then 9 &&& 0xFF else 4 &&& 0xFF) ∧
    (([255] : List Nat).length ≤ 1 * ((7 + 7) / 8) + 3 / 8 →
      ∀ cv : Nat, ((((0 : Int) + ((1 : Nat) : Int), (0 : Int) + ((3 : Nat) : Int)), cv) ∉
        drawCharTransparent [255] 5 7 0 0 9))) :=
  ⟨by decide, by decide,
    drawChar_bit_formula_truncation_safe [255] 5 7 0 0 9 4 1 3 (by decide) (by decide)⟩

theorem overlayGlyph_length (glyph : List Nat) (bpc w cw fh a b : Nat) (buf : List Nat) :
    (overlayGlyph glyph bpc w cw fh a b buf).length = buf.length := by
  unfold overlayGlyph
  exact foldl_inner_length glyph bpc w a b fh (List.range cw) buf

/-- C10: the opaque path of `_draw_char` performs no bounds checking
or clipping: for every position `(x, y)` — including positions
partially or wholly outside the visible area — it addresses a
`(char_width + 1) × (font_height + 1)` window at `(x, y)` and streams
the full tile buffer of `(char_width + 1) * (font_height + 1) * 2`
bytes; by contrast `pixel` is a no-op at any out-of-bounds coordinate
and `fill_rect` is a no-op on any fully out-of-bounds rectangle. -/
theorem drawCharFast_never_clips (t : TFT) (glyph : List Nat) (cw fh : Nat)
    (x y : Int) (color bg : Nat) (hxo : t.xoff = 0) (hyo : t.yoff = 0) :
    (drawCharFast t glyph cw fh x y color bg).1 =
      ⟨x, y, x + (cw : Int), y + (fh : Int)⟩ ∧
    (drawCharFast t glyph cw fh x y color bg).1.pixelCount =
      ((cw : Int) + 1) * ((fh : Int) + 1) ∧
    (drawCharFast t glyph cw fh x y color bg).2.length = (cw + 1) * (fh + 1) * 2 ∧
    (∀ px py : Int, ∀ c : Nat,
      (px < 0 ∨ py < 0 ∨ px ≥ t.width ∨ py ≥ t.height) → t.pixel px py c = none) ∧
    (∀ px py pw ph : Int, ∀ c : Nat,
      (px + pw - 1 < 0 ∨ py + ph - 1 < 0 ∨ t.width ≤ px ∨ t.height ≤ py) →
      t.fillRect px py pw ph c = none) := by
  have hwin : (drawCharFast t glyph cw fh x y color bg).1 =
      ⟨x, y, x + (cw : Int), y + (fh : Int)⟩ := by
    simp only [drawCharFast, TFT.setWindow, hxo, hyo, add_zero]
    have e1 : x + ((cw + 1 : Nat) : Int) - 1 = x + (cw : Int) := by push_cast; ring
    have e2 : y + ((fh + 1 : Nat) : Int) - 1 = y + (fh : Int) := by push_cast; ring
    rw [e1, e2]
  refine ⟨hwin, ?_, ?_, ?_, ?_⟩
  · rw [hwin]
    simp only [Window.pixelCount]
    ring
  · simp only [drawCharFast, drawCharTileBuf]
    rw [overlayGlyph_length, bgFill_length]
    ring
  · intro px py c hout
    simp only [TFT.pixel]
    rw [if_pos hout]
  · intro px py pw ph c hout
    simp only [TFT.fillRect]
    split <;> first | rfl | (exfalso; omega)

/-- Concrete instantiation of `drawCharFast_never_clips` at the
wholly out-of-bounds position (-100, -100) on a 240×320 panel. -/
theorem drawCharFast_never_clips_witness :
    (TFT.mk 240 320 0 0 0).xoff = 0 ∧ (TFT.mk 240 320 0 0 0).yoff = 0 ∧
    ((drawCharFast (TFT.mk 240 320 0 0 0) [255] 5 7 (-100) (-100) 9 4).1 =
        ⟨-100, -100, -100 + ((5 : Nat) : Int), -100 + ((7 : Nat) : Int)⟩ ∧
      (drawCharFast (TFT.mk 240 320 0 0 0) [255] 5 7 (-100) (-100) 9 4).1.pixelCount =
        (((5 : Nat) : Int) + 1) * (((7 : Nat) : Int) + 1) ∧
      (drawCharFast (TFT.mk 240 320 0 0 0) [255] 5 7 (-100) (-100) 9 4).2.length =
        (5 + 1) * (7 + 1) * 2 ∧
      (∀ px py : Int, ∀ c : Nat,
        (px < 0 ∨ py < 0 ∨ px ≥ (TFT.mk 240 320 0 0 0).width ∨
          py ≥ (TFT.mk 240 320 0 0 0).height) →
        (TFT.mk 240 320 0 0 0).pixel px py c = none) ∧
      (∀ px py pw ph : Int, ∀ c : Nat,
        (px + pw - 1 < 0 ∨ py + ph - 1 < 0 ∨ (TFT.mk 240 320 0 0 0).width ≤ px ∨
          (TFT.mk 240 320 0 0 0).height ≤ py) →
        (TFT.mk 240 320 0 0 0).fillRect px py pw ph c = none)) :=
  ⟨by decide, by decide,
    drawCharFast_never_clips (TFT.mk 240 320 0 0 0) [255] 5 7 (-100) (-100) 9 4
      (by decide) (by decide)⟩
